import Mathlib

/-!
Verification of the bree OCR-matcher core.

This file is a shallow embedding of the OCR segment-reconstruction and
substring-to-bounding-box code of `src/bree/ocr.py`, the geometry value
types of `src/bree/location.py`, and the wait/poll helpers of
`src/bree/image.py`, together with theorems checking the repository's
natural-language specification against that code.

Conventions of the embedding:
* Python strings are `List Char`; Python ints are `Int` (character offsets
  as well as pixel coordinates); OCR confidences are `ℚ`.
* Fallible Python code (list indexing past the end, `min` of an empty
  sequence) is embedded in `Except PyErr`.
* The OCR engine output (a pytesseract dataframe after `df.dropna()`) is
  modelled as the grouped row structure the reconstruction loop iterates
  over: a list of paragraphs, each a list of lines, each a list of rows.
  `groupby` groups are nonempty by construction, so theorems about glue
  regions carry nonemptiness hypotheses for the grouped lists.
-/

namespace Bree

/-- Python exceptions raised by the embedded code: `IndexError` from list
indexing past the end, `ValueError` from `min()` of an empty sequence. -/
inductive PyErr where
  | indexError
  | valueError
deriving DecidableEq, Repr

deriving instance DecidableEq for Except

/-- `Region` from `src/bree/location.py`: `{x, y, width, height}`. -/
structure Region where
  x : Int
  y : Int
  width : Int
  height : Int
deriving DecidableEq, Repr

namespace Region

/-- `Region.from_coordinates(left, top, right, bottom)` of
`src/bree/location.py`, which computes `width = right - left` and
`height = bottom - top` (possibly negative; never clamped).  These are
also the semantics of the four-coordinate `Region.from_points` calls made
by `src/bree/ocr.py` (that four-argument form is defined verbatim in
`src/image.py`, and in `src/bree/location.py` `from_points` delegates to
`from_coordinates` with the same four coordinates). -/
def from_coordinates (left top right bottom : Int) : Region :=
  ⟨left, top, right - left, bottom - top⟩

/-- `Region.left` property. -/
def left (r : Region) : Int := r.x

/-- `Region.top` property. -/
def top (r : Region) : Int := r.y

/-- `Region.right` property. -/
def right (r : Region) : Int := r.x + r.width

/-- `Region.bottom` property. -/
def bottom (r : Region) : Int := r.y + r.height

end Region

/-- The `OCRMatch` namedtuple of `src/bree/ocr.py`: a contiguous character
range of the transcript mapped to a source region; `confidence = none`
marks a synthetic glue segment. -/
structure OCRMatch where
  index_start : Int
  index_end : Int
  region : Region
  confidence : Option ℚ
deriving DecidableEq, Repr

/-- One surviving row of the OCR engine table (after `df.dropna()`):
pixel bounding box, confidence, and recognized text. -/
structure Row where
  left : Int
  top : Int
  width : Int
  height : Int
  conf : ℚ
  text : List Char
deriving DecidableEq, Repr

/-- The pixel box of a row, `Region(row['left'], row['top'], row['width'],
row['height'])`. -/
def Row.region (r : Row) : Region := ⟨r.left, r.top, r.width, r.height⟩

/-- Placeholder row used to express `iloc[0]` on a grouped sub-frame; a
`groupby` group is never empty, so under the nonemptiness hypotheses of the
theorems below this placeholder is never consulted. -/
def dummyRow : Row := ⟨0, 0, 0, 0, 0, []⟩

/-- Reconstruction state of `_process_file`: the transcript built so far
(`final_string`) and the segments appended so far, most recent first
(`index_mapping` reversed; consing at the head embeds `list.append`). -/
structure PState where
  str : List Char
  revSegs : List OCRMatch
deriving DecidableEq, Repr

/-- `index_mapping[-1].region`: the region of the most recently appended
segment (only consulted when `final_string` is nonempty, which guarantees
`index_mapping` is nonempty). -/
def PState.prevRegion (st : PState) : Region :=
  (st.revSegs.headD ⟨0, 0, ⟨0, 0, 0, 0⟩, none⟩).region

/-- Append one segment covering `text` and advance the transcript:
`index_mapping.append(OCRMatch(len(final_string), len(final_string) +
len(text), reg, conf)); final_string += text`. -/
def PState.pushSeg (st : PState) (text : List Char) (reg : Region)
    (conf : Option ℚ) : PState :=
  { str := st.str ++ text,
    revSegs :=
      ⟨(st.str.length : Int), (st.str.length : Int) + text.length, reg, conf⟩
        :: st.revSegs }

/-- Append a synthetic glue segment whose region bridges the previous
segment's right edge to `nextLeft`, with the previous segment's vertical
extent: `Region.from_points(previous_region.right, previous_region.top,
nextLeft, previous_region.bottom)` with confidence `None`. -/
def PState.pushGlue (st : PState) (glue : List Char) (nextLeft : Int) : PState :=
  st.pushSeg glue
    (Region.from_coordinates st.prevRegion.right st.prevRegion.top nextLeft
      st.prevRegion.bottom)
    none

/-- Append a token's own segment: its exact text, its own pixel box, its
own confidence. -/
def PState.pushTok (st : PState) (r : Row) : PState :=
  st.pushSeg r.text r.region (some r.conf)

/-- The word loop of `_process_file`: rows with empty text are skipped;
before each word except the line's first (and only once the transcript is
nonempty) a single-space glue segment is appended; then the token's own
segment. -/
def processWords (st : PState) (newLine : Bool) : List Row → PState
  | [] => st
  | r :: rest =>
    if r.text = [] then processWords st newLine rest
    else
      let st1 := if 0 < st.str.length ∧ newLine = false
        then st.pushGlue [' '] r.left else st
      processWords (st1.pushTok r) false rest

/-- The line loop of `_process_file`: between lines of the same paragraph
(never before the paragraph's first line) a `line_break` glue segment is
appended, bridging to `line.iloc[0]['left']`. -/
def processLines (lineBreak : List Char) (st : PState) (newParagraph : Bool) :
    List (List Row) → PState
  | [] => st
  | line :: rest =>
    let st1 := if 0 < st.str.length ∧ newParagraph = false
      then st.pushGlue lineBreak (line.headD dummyRow).left else st
    processLines lineBreak (processWords st1 true line) false rest

/-- The paragraph body of `_process_file`: when the transcript is already
nonempty a `paragraph_break` glue segment is appended first, bridging to
`paragraph.iloc[0]['left']`. -/
def processParagraph (lineBreak paragraphBreak : List Char) (st : PState)
    (par : List (List Row)) : PState :=
  let st1 := if 0 < st.str.length
    then st.pushGlue paragraphBreak ((par.headD []).headD dummyRow).left else st
  processLines lineBreak st1 true par

/-- `_process_file` of `src/bree/ocr.py`: fold the grouped rows into the
transcript and segment list, starting from the empty state. -/
def processFile (lineBreak paragraphBreak : List Char)
    (pars : List (List (List Row))) : PState :=
  pars.foldl (processParagraph lineBreak paragraphBreak) ⟨[], []⟩

/-- An `OCRMatcher` after construction: the flattened transcript
(`_parsed_text`) and the ordered segment list (`_ocr_segments`). -/
structure OCRMatcher where
  parsed_text : List Char
  ocr_segments : List OCRMatch
deriving DecidableEq, Repr

/-- Constructing an `OCRMatcher` on an image runs `_process_file` once on
the grouped OCR engine output. -/
def OCRMatcher.ofInput (lineBreak paragraphBreak : List Char)
    (pars : List (List (List Row))) : OCRMatcher :=
  let st := processFile lineBreak paragraphBreak pars
  ⟨st.str, st.revSegs.reverse⟩

/-- Python `str.find`: index of the first occurrence of `pat` in `hay`,
`none` when absent (`-1` in Python). -/
def strFind : List Char → List Char → Option Nat
  | hay, pat =>
    if pat.isPrefixOf hay then some 0
    else
      match hay with
      | [] => none
      | _ :: t => (strFind t pat).map (· + 1)

/-- Python `value or default` for the integer `start`/`end` arguments:
both `None` and `0` are falsy, so both select the default. -/
def pyOrNat (v : Option Nat) (d : Nat) : Nat :=
  match v with
  | none => d
  | some 0 => d
  | some k => k

/-- The `while index_end >= token.index_end` collection loop of
`find_bounding_boxes`: `token` is the current token, `rest` the segments
after it; when the loop steps past the end of the segment list the Python
indexing `self._ocr_segments[end_token_i]` raises `IndexError`. -/
def collectTokens (idxEnd : Int) : OCRMatch → List OCRMatch →
    Except PyErr (List OCRMatch)
  | token, rest =>
    if idxEnd ≥ token.index_end then
      match rest with
      | [] => .error .indexError
      | u :: us => (collectTokens idxEnd u us).map (token :: ·)
    else .ok []

/-- The `for i, token in enumerate(self._ocr_segments)` scan of
`find_bounding_boxes`: find the first segment whose range contains
`idxStart`; `none` means the loop fell through (no covering segment). -/
def scanSegments (idxStart idxEnd : Int) : List OCRMatch →
    Except PyErr (Option (List OCRMatch))
  | [] => .ok none
  | token :: rest =>
    if token.index_start ≤ idxStart ∧ idxStart < token.index_end then
      if idxEnd ≤ token.index_end then .ok (some [token])
      else (collectTokens idxEnd token rest).map some
    else scanSegments idxStart idxEnd rest

/-- Effective search start: `start = start or 0`. -/
def OCRMatcher.effStart (_m : OCRMatcher) (startArg : Option Nat) : Nat :=
  pyOrNat startArg 0

/-- Effective search end: `end = end or len(self._parsed_text)`. -/
def OCRMatcher.effEnd (m : OCRMatcher) (endArg : Option Nat) : Nat :=
  pyOrNat endArg m.parsed_text.length

/-- `text_to_search = self._parsed_text[start:end]` (Python slice). -/
def OCRMatcher.window (m : OCRMatcher) (startArg endArg : Option Nat) :
    List Char :=
  (m.parsed_text.drop (m.effStart startArg)).take
    (m.effEnd endArg - m.effStart startArg)

/-- Common tail of `find_bounding_boxes`: run the front-end `search` on
the window (the literal and regex branches both produce a window-relative
span), offset the span back by `start`, then scan the segment list. -/
def OCRMatcher.fbbWith (m : OCRMatcher) (search : List Char → Option (Nat × Nat))
    (startArg endArg : Option Nat) : Except PyErr (Int × Int × List OCRMatch) :=
  match search (m.window startArg endArg) with
  | none => .ok (-1, -1, [])
  | some (a, b) =>
    let s : Int := (a : Int) + (m.effStart startArg : Int)
    let e : Int := (b : Int) + (m.effStart startArg : Int)
    (scanSegments s e m.ocr_segments).map fun
      | none => (-1, -1, [])
      | some toks => (s, e, toks)

/-- The literal (non-regex) front end: `index_start =
text_to_search.find(needle); index_end = index_start + len(needle)`. -/
def litSearch (needle : List Char) (t : List Char) : Option (Nat × Nat) :=
  (strFind t needle).map fun j => (j, j + needle.length)

/-- `OCRMatcher.find_bounding_boxes` with `regex=False`. -/
def OCRMatcher.find_bounding_boxes (m : OCRMatcher) (needle : List Char)
    (startArg endArg : Option Nat) : Except PyErr (Int × Int × List OCRMatch) :=
  m.fbbWith (litSearch needle) startArg endArg

/-- `OCRMatcher.find_bounding_boxes` with `regex=True`: the `re.search`
engine is abstracted as `rsearch`, returning the span of the first match
within the window (`None` when the pattern does not match). -/
def OCRMatcher.find_bounding_boxes_regex (m : OCRMatcher)
    (rsearch : List Char → Option (Nat × Nat)) (startArg endArg : Option Nat) :
    Except PyErr (Int × Int × List OCRMatch) :=
  m.fbbWith rsearch startArg endArg

/-- Python `min`/`max` over a nonempty sequence, head plus tail. -/
def foldMin {α : Type} [LinearOrder α] (x : α) (xs : List α) : α :=
  xs.foldl min x

/-- Python `max` over a nonempty sequence, head plus tail. -/
def foldMax {α : Type} [LinearOrder α] (x : α) (xs : List α) : α :=
  xs.foldl max x

/-- `OCRMatcher.find`, generic in the search front end: on a nonempty
bounding-box list, aggregate one `OCRMatch` whose indices are the match's
own, whose region is `from_points(min lefts, min tops, max rights, max
bottoms)`, and whose confidence is `min` over the non-null confidences
(`ValueError` when that sequence is empty); otherwise `None`. -/
def OCRMatcher.findWith (m : OCRMatcher) (search : List Char → Option (Nat × Nat))
    (startArg endArg : Option Nat) : Except PyErr (Option OCRMatch) :=
  (m.fbbWith search startArg endArg).bind fun r =>
    match r with
    | (_, _, []) => .ok none
    | (s, e, b :: bs) =>
      match (b :: bs).filterMap OCRMatch.confidence with
      | [] => .error .valueError
      | c :: cs =>
        .ok (some
          ⟨s, e,
            Region.from_coordinates
              (foldMin b.region.left (bs.map fun t => t.region.left))
              (foldMin b.region.top (bs.map fun t => t.region.top))
              (foldMax b.region.right (bs.map fun t => t.region.right))
              (foldMax b.region.bottom (bs.map fun t => t.region.bottom)),
            some (foldMin c cs)⟩)

/-- `OCRMatcher.find` with `regex=False`. -/
def OCRMatcher.find (m : OCRMatcher) (needle : List Char)
    (startArg endArg : Option Nat) : Except PyErr (Option OCRMatch) :=
  m.findWith (litSearch needle) startArg endArg

/-- `OCRMatcher.find` with `regex=True` (engine abstracted as in
`find_bounding_boxes_regex`). -/
def OCRMatcher.find_regex (m : OCRMatcher)
    (rsearch : List Char → Option (Nat × Nat)) (startArg endArg : Option Nat) :
    Except PyErr (Option OCRMatch) :=
  m.findWith rsearch startArg endArg

/-- Modelled from the spec: `OCRMatcher.find_bounding_boxes_all` is not
present in `src/bree/ocr.py` (only its tests in `src/tests/test_ocr.py`
and its caller in `src/bree/image.py` are).  Spec section 4.2: repeatedly
invoke `find_bounding_boxes`, advancing the search-start index past the
previous match's end, collecting all non-sentinel results until
exhaustion.  `fuel` bounds the iteration count; it is always sufficient
for a nonempty needle. -/
def OCRMatcher.fbbAllAux (m : OCRMatcher) (needle : List Char) :
    Nat → Nat → Except PyErr (List (Int × Int × List OCRMatch))
  | 0, _ => .ok []
  | fuel + 1, start =>
    (m.find_bounding_boxes needle (some start) none).bind fun r =>
      if r = (-1, -1, []) then .ok []
      else (m.fbbAllAux needle fuel r.2.1.toNat).map (r :: ·)

/-- Modelled from the spec (see `OCRMatcher.fbbAllAux`): the entry point
starts the scan at offset 0 with sufficient fuel. -/
def OCRMatcher.find_bounding_boxes_all (m : OCRMatcher) (needle : List Char) :
    Except PyErr (List (Int × Int × List OCRMatch)) :=
  m.fbbAllAux needle (m.parsed_text.length + 2) 0

/-- Modelled from the spec: `OCRMatcher.find_all` is not present in
`src/bree/ocr.py` (only its tests and its caller in `src/bree/image.py`
are).  Spec section 4.2: repeatedly invoke `find`, advancing the
search-start index past the previous match's end, collecting all non-null
results until exhaustion. -/
def OCRMatcher.findAllAux (m : OCRMatcher) (needle : List Char) :
    Nat → Nat → Except PyErr (List OCRMatch)
  | 0, _ => .ok []
  | fuel + 1, start =>
    (m.find needle (some start) none).bind fun r =>
      match r with
      | none => .ok []
      | some mch => (m.findAllAux needle fuel mch.index_end.toNat).map (mch :: ·)

/-- Modelled from the spec (see `OCRMatcher.findAllAux`): the entry point
starts the scan at offset 0 with sufficient fuel. -/
def OCRMatcher.find_all (m : OCRMatcher) (needle : List Char) :
    Except PyErr (List OCRMatch) :=
  m.findAllAux needle (m.parsed_text.length + 2) 0

/-- The loop of `_wait_until_needle_appears` in `src/bree/image.py`:
`calls k` is the result of the `k`-th invocation of `find_method`; the
returned pair is (number of invocations performed, final `result`).  The
`pyautogui.sleep` between scans is dropped: only the scan/invocation
semantics is modelled. -/
def waitAppearsAux {α : Type} (bound : ℚ) (calls : Nat → List α)
    (scanCount : Int) (k : Nat) (result : List α) : Nat × List α :=
  if h : (scanCount : ℚ) < bound then
    let r := calls k
    if 0 < r.length then (k + 1, r)
    else waitAppearsAux bound calls (scanCount + 1) (k + 1) r
  else (k, result)
termination_by (Int.ceil bound - scanCount).toNat
decreasing_by
  have h2 : scanCount < Int.ceil bound := Int.lt_ceil.mpr h
  omega

/-- `_wait_until_needle_appears`: `scan_count = 0 if timeout *
scans_per_second > 0 else -1` (the source comment reads "We want the loop
to occur at least once"), then loop while `scan_count < timeout *
scans_per_second`. -/
def waitUntilNeedleAppears {α : Type} (timeout scansPerSecond : ℚ)
    (calls : Nat → List α) : Nat × List α :=
  waitAppearsAux (timeout * scansPerSecond) calls
    (if 0 < timeout * scansPerSecond then 0 else -1) 0 []

/-- The loop of `_wait_until_needle_vanishes` in `src/bree/image.py`:
returns (number of invocations performed, boolean result). -/
def waitVanishesAux {α : Type} (bound : ℚ) (calls : Nat → List α)
    (scanCount : Int) (k : Nat) : Nat × Bool :=
  if h : (scanCount : ℚ) < bound then
    let r := calls k
    if r.length = 0 then (k + 1, true)
    else waitVanishesAux bound calls (scanCount + 1) (k + 1)
  else (k, false)
termination_by (Int.ceil bound - scanCount).toNat
decreasing_by
  have h2 : scanCount < Int.ceil bound := Int.lt_ceil.mpr h
  omega

/-- `_wait_until_needle_vanishes`: same initialisation and loop condition
as the appears variant. -/
def waitUntilNeedleVanishes {α : Type} (timeout scansPerSecond : ℚ)
    (calls : Nat → List α) : Nat × Bool :=
  waitVanishesAux (timeout * scansPerSecond) calls
    (if 0 < timeout * scansPerSecond then 0 else -1) 0

/-- Spec-side description of the covering-segment scan of
`find_bounding_boxes`: the first segment whose `[index_start, index_end)`
range contains `s`, together with the segments after it. -/
def specCovering (s : Int) : List OCRMatch → Option (OCRMatch × List OCRMatch)
  | [] => none
  | t :: rest =>
    if t.index_start ≤ s ∧ s < t.index_end then some (t, rest)
    else specCovering s rest

/-- `segs` tiles the half-open offset interval `[a, b)`: consecutive
segments abut (`segs[i].index_end = segs[i+1].index_start`), the first
starts at `a`, and the last ends at `b`. -/
def tilesFrom : List OCRMatch → Int → Int → Prop
  | [], a, b => a = b
  | sg :: rest, a, b => sg.index_start = a ∧ tilesFrom rest sg.index_end b

instance tilesFromDecidable : ∀ (l : List OCRMatch) (a b : Int),
    Decidable (tilesFrom l a b)
  | [], a, b => inferInstanceAs (Decidable (a = b))
  | sg :: rest, _, b =>
    have : Decidable (tilesFrom rest sg.index_end b) :=
      tilesFromDecidable rest sg.index_end b
    inferInstanceAs (Decidable (_ ∧ _))

/-- Python slice `str[a:b]` for `0 ≤ a ≤ b` offsets. -/
def sliceI (str : List Char) (a b : Int) : List Char :=
  (str.drop a.toNat).take (b - a).toNat

/-- All token rows of a grouped OCR-engine output, in order. -/
def allRows (pars : List (List (List Row))) : List Row :=
  (pars.map (fun p => p.flatten)).flatten

/-- Chain predicate on the reversed (most-recent-first) segment list: in
every chronological triple (a, b, c) — which appears as `c :: b :: a` in
the reversed list — a glue middle segment `b` bridges a's right edge to
c's left edge with a's vertical extent. -/
def revGlueWF : List OCRMatch → Prop
  | c :: b :: a :: rest =>
    (b.confidence = none →
      b.region = Region.from_coordinates a.region.right a.region.top
        c.region.left a.region.bottom) ∧
    revGlueWF (b :: a :: rest)
  | _ => True

/-- The most recently appended segment is a real token (or the list is
empty). -/
def headTok : List OCRMatch → Prop
  | [] => True
  | sg :: _ => sg.confidence.isSome = true

/-- The oldest appended segment is a real token (or the list is empty). -/
def lastTok : List OCRMatch → Prop
  | [] => True
  | [sg] => sg.confidence.isSome = true
  | _ :: sg :: rest => lastTok (sg :: rest)

/-- Invariant carried through `_process_file` for the glue-region
theorems: the triple chain holds, both ends of the (reversed) segment
list are real tokens, and the transcript is empty exactly when no segment
has been appended. -/
def GlueInv (st : PState) : Prop :=
  revGlueWF st.revSegs ∧ headTok st.revSegs ∧ lastTok st.revSegs ∧
    (st.str = [] ↔ st.revSegs = [])

/-- Well-formed grouped OCR output: `groupby` groups are nonempty and
every token row has nonempty recognized text. -/
def WFInput (pars : List (List (List Row))) : Prop :=
  ∀ par ∈ pars, par ≠ [] ∧ ∀ line ∈ par, line ≠ [] ∧ ∀ r ∈ line, r.text ≠ []

instance WFInputDecidable (pars : List (List (List Row))) :
    Decidable (WFInput pars) := by
  unfold WFInput
  infer_instance

/-- Invariant carried through `_process_file` for the tiling theorems:
the segments appended so far (in chronological order) tile `[0,
len(final_string))`, and no segment ends before it starts. -/
def TilingInv (st : PState) : Prop :=
  tilesFrom st.revSegs.reverse 0 (st.str.length : Int) ∧
    ∀ sg ∈ st.revSegs, sg.index_start ≤ sg.index_end

/-- One segment is consistent with the transcript `str`: its range is
inside the transcript, and its slice of the transcript is the text that
produced it — a space, the line break or the paragraph break for a glue
segment, and the row's own text (with its own confidence and pixel box)
for a token segment drawn from the row pool `R`. -/
def SegOK (R : List Row) (lb pb : List Char) (str : List Char)
    (sg : OCRMatch) : Prop :=
  0 ≤ sg.index_start ∧ sg.index_start ≤ sg.index_end ∧
    sg.index_end ≤ (str.length : Int) ∧
    ((sg.confidence = none ∧
        (sliceI str sg.index_start sg.index_end = [' '] ∨
          sliceI str sg.index_start sg.index_end = lb ∨
          sliceI str sg.index_start sg.index_end = pb)) ∨
      (∃ r ∈ R, sliceI str sg.index_start sg.index_end = r.text ∧
        sg.confidence = some r.conf ∧ sg.region = r.region))

/-- Invariant carried through `_process_file` for the round-trip
theorems: every appended segment is consistent with the transcript built
so far. -/
def SliceInv (R : List Row) (lb pb : List Char) (st : PState) : Prop :=
  ∀ sg ∈ st.revSegs, SegOK R lb pb st.str sg

/-- Sample row "ab" used by the concrete witnesses below. -/
def rowAB : Row := ⟨10, 1, 5, 3, 9, ['a', 'b']⟩

/-- Sample row "cd" used by the concrete witnesses below. -/
def rowCD : Row := ⟨20, 1, 6, 3, 4, ['c', 'd']⟩

/-- Sample matcher: one paragraph, one line, tokens "ab" and "cd";
transcript "ab cd" with segments (0,2) token, (2,3) glue, (3,5) token. -/
def sampleM : OCRMatcher :=
  OCRMatcher.ofInput ['\n'] ['\n', '\n'] [[[rowAB, rowCD]]]

/-- Sample row "Py" for the two-paragraph matcher. -/
def rowPy : Row := ⟨26, 29, 98, 32, 24, ['P', 'y']⟩

/-- Sample row "is" for the two-paragraph matcher. -/
def rowIs : Row := ⟨135, 29, 195, 32, 19, ['i', 's']⟩

/-- Sample row "ok" for the two-paragraph matcher. -/
def rowOk : Row := ⟨27, 84, 36, 12, 97, ['o', 'k']⟩

/-- Sample row "zz" for the two-paragraph matcher. -/
def rowZz : Row := ⟨50, 106, 79, 12, 93, ['z', 'z']⟩

/-- Sample matcher with a two-line first paragraph and a second
paragraph: transcript "Py is\nok\n\nzz" with space, line-break and
paragraph-break glue segments (the latter two with negative widths). -/
def sampleM2 : OCRMatcher :=
  OCRMatcher.ofInput ['\n'] ['\n', '\n'] [[[rowPy, rowIs], [rowOk]], [[rowZz]]]

theorem window_none_none (m : OCRMatcher) : m.window none none = m.parsed_text := by
  simp [OCRMatcher.window, OCRMatcher.effStart, OCRMatcher.effEnd, pyOrNat]

theorem scanSegments_eq (s e : Int) (l : List OCRMatch) :
    scanSegments s e l =
      match specCovering s l with
      | none => .ok none
      | some (t, rest) =>
        if e ≤ t.index_end then .ok (some [t])
        else (collectTokens e t rest).map some := by
  induction l with
  | nil => rfl
  | cons sg rest ih =>
    by_cases h : sg.index_start ≤ s ∧ s < sg.index_end
    · simp [scanSegments, specCovering, h]
    · simp [scanSegments, specCovering, h, ih]

theorem collectTokens_indexError (e : Int) (t : OCRMatch) (rest : List OCRMatch)
    (hall : ∀ u ∈ t :: rest, u.index_end ≤ e) :
    collectTokens e t rest = .error .indexError := by
  induction rest generalizing t with
  | nil => simp [collectTokens, hall t (by simp)]
  | cons u us ih =>
    have ht : t.index_end ≤ e := hall t (by simp)
    have h2 : ∀ v ∈ u :: us, v.index_end ≤ e := by
      intro v hv
      exact hall v (List.mem_cons_of_mem t hv)
    simp [collectTokens, Except.map, ht, ih u h2]

theorem collectTokens_takeWhile (e : Int) (t : OCRMatch) (rest : List OCRMatch)
    (hex : ∃ u ∈ t :: rest, e < u.index_end) :
    collectTokens e t rest =
      .ok ((t :: rest).takeWhile fun u => decide (u.index_end ≤ e)) := by
  induction rest generalizing t with
  | nil =>
    obtain ⟨u, hu, hlt⟩ := hex
    simp only [List.mem_singleton] at hu
    subst hu
    simp [collectTokens, List.takeWhile_cons, not_le.mpr hlt, not_le_of_lt hlt]
  | cons u us ih =>
    by_cases h : e < t.index_end
    · simp [collectTokens, List.takeWhile_cons, not_le.mpr h, not_le_of_lt h]
    · push_neg at h
      have hex2 : ∃ v ∈ u :: us, e < v.index_end := by
        obtain ⟨v, hv, hlt⟩ := hex
        rcases List.mem_cons.mp hv with hv1 | hv2
        · subst hv1; exact absurd h (not_le_of_lt hlt)
        · exact ⟨v, hv2, hlt⟩
      simp [collectTokens, Except.map, h, ih u hex2, List.takeWhile_cons]

theorem fbb_lit_some (m : OCRMatcher) (needle : List Char) (j : Nat)
    (hj : strFind m.parsed_text needle = some j) :
    m.find_bounding_boxes needle none none =
      (scanSegments (j : Int) ((j : Int) + needle.length) m.ocr_segments).map
        fun res =>
          match res with
          | none => (-1, -1, [])
          | some toks => ((j : Int), (j : Int) + needle.length, toks) := by
  unfold OCRMatcher.find_bounding_boxes OCRMatcher.fbbWith litSearch
  rw [window_none_none, hj]
  simp [OCRMatcher.effStart, pyOrNat]

/-- Helper: with no occurrence in the searched window (literal or
regex), `find_bounding_boxes` returns the sentinel and `find` returns
`None`. -/
theorem sentinel_of_no_occurrence (m : OCRMatcher) (needle : List Char)
    (rsearch : List Char → Option (Nat × Nat)) (startArg endArg : Option Nat) :
    (strFind (m.window startArg endArg) needle = none →
      m.find_bounding_boxes needle startArg endArg = .ok (-1, -1, []) ∧
      m.find needle startArg endArg = .ok none) ∧
    (rsearch (m.window startArg endArg) = none →
      m.find_bounding_boxes_regex rsearch startArg endArg = .ok (-1, -1, []) ∧
      m.find_regex rsearch startArg endArg = .ok none) := by
  constructor
  · intro h
    constructor
    · simp [OCRMatcher.find_bounding_boxes, OCRMatcher.fbbWith, litSearch, h]
    · simp [OCRMatcher.find, OCRMatcher.findWith, OCRMatcher.fbbWith, litSearch,
        h, Except.bind]
  · intro h
    constructor
    · simp [OCRMatcher.find_bounding_boxes_regex, OCRMatcher.fbbWith, h]
    · simp [OCRMatcher.find_regex, OCRMatcher.findWith, OCRMatcher.fbbWith, h,
        Except.bind]

/-- C9: a needle (literal or regex) with no occurrence in the searched
window makes `find_bounding_boxes` return the sentinel `(-1, -1, [])` and
`find` return `None`; no exception is raised in either case. -/
theorem no_occurrence_sentinel (m : OCRMatcher) (needle : List Char)
    (rsearch : List Char → Option (Nat × Nat)) (startArg endArg : Option Nat) :
    (strFind (m.window startArg endArg) needle = none →
      m.find_bounding_boxes needle startArg endArg = .ok (-1, -1, []) ∧
      m.find needle startArg endArg = .ok none) ∧
    (rsearch (m.window startArg endArg) = none →
      m.find_bounding_boxes_regex rsearch startArg endArg = .ok (-1, -1, []) ∧
      m.find_regex rsearch startArg endArg = .ok none) :=
  sentinel_of_no_occurrence m needle rsearch startArg endArg

/-- Witness for `no_occurrence_sentinel`: the needle "zz" does not occur
in the sample transcript "ab cd", and both lookups report no match. -/
theorem no_occurrence_sentinel_witness :
    sampleM.find_bounding_boxes ['z', 'z'] none none = .ok (-1, -1, []) ∧
    sampleM.find ['z', 'z'] none none = .ok none :=
  (no_occurrence_sentinel sampleM ['z', 'z'] (fun _ => none) none none).1
    (by decide)

/-- C2: when `find_bounding_boxes` yields a match with a nonempty
bounding-box list whose non-null confidences are nonempty, `find` returns
one aggregate `OCRMatch` keeping the match's own indices, with region
`left = min(lefts)`, `top = min(tops)`, `right = max(rights)`,
`bottom = max(bottoms)` over all contributing segments, and confidence
the minimum over the non-null confidences only. -/
theorem find_aggregates (m : OCRMatcher) (needle : List Char)
    (startArg endArg : Option Nat) (s e : Int) (b : OCRMatch)
    (bs : List OCRMatch) (c : ℚ) (cs : List ℚ)
    (hfbb : m.find_bounding_boxes needle startArg endArg = .ok (s, e, b :: bs))
    (hconf : (b :: bs).filterMap OCRMatch.confidence = c :: cs) :
    ∃ mch, m.find needle startArg endArg = .ok (some mch) ∧
      mch.index_start = s ∧ mch.index_end = e ∧
      mch.region.left = foldMin b.region.left (bs.map fun t => t.region.left) ∧
      mch.region.top = foldMin b.region.top (bs.map fun t => t.region.top) ∧
      mch.region.right =
        foldMax b.region.right (bs.map fun t => t.region.right) ∧
      mch.region.bottom =
        foldMax b.region.bottom (bs.map fun t => t.region.bottom) ∧
      mch.confidence = some (foldMin c cs) := by
  have hfbb2 : m.fbbWith (litSearch needle) startArg endArg = .ok (s, e, b :: bs) :=
    hfbb
  refine
    ⟨⟨s, e,
        Region.from_coordinates
          (foldMin b.region.left (bs.map fun t => t.region.left))
          (foldMin b.region.top (bs.map fun t => t.region.top))
          (foldMax b.region.right (bs.map fun t => t.region.right))
          (foldMax b.region.bottom (bs.map fun t => t.region.bottom)),
        some (foldMin c cs)⟩,
      ?_, rfl, rfl, ?_, ?_, ?_, ?_, rfl⟩
  · simp only [OCRMatcher.find, OCRMatcher.findWith, hfbb2, Except.bind, hconf]
  · simp [Region.from_coordinates, Region.left]
  · simp [Region.from_coordinates, Region.top]
  · simp [Region.from_coordinates, Region.right]
  · simp [Region.from_coordinates, Region.bottom]

/-- Witness for `find_aggregates`: searching "b c" in the sample matcher
matches at (1, 4) across the token "ab" and the space glue; the aggregate
keeps indices (1, 4), the union box of the two segments, and the sole
non-null confidence 9. -/
theorem find_aggregates_witness :
    ∃ mch, sampleM.find ['b', ' ', 'c'] none none = .ok (some mch) ∧
      mch.index_start = 1 ∧ mch.index_end = 4 ∧
      mch.region.left = foldMin (10 : Int) [15] ∧
      mch.region.top = foldMin (1 : Int) [1] ∧
      mch.region.right = foldMax (15 : Int) [20] ∧
      mch.region.bottom = foldMax (4 : Int) [4] ∧
      mch.confidence = some (foldMin (9 : ℚ) []) :=
  find_aggregates sampleM ['b', ' ', 'c'] none none 1 4
    ⟨0, 2, ⟨10, 1, 5, 3⟩, some 9⟩ [⟨2, 3, ⟨15, 1, 5, 3⟩, none⟩]
    9 [] (by rfl) (by rfl)

theorem scanSegments_covering (s e : Int) (l : List OCRMatch) (t : OCRMatch)
    (rest : List OCRMatch) (hcov : specCovering s l = some (t, rest)) :
    scanSegments s e l =
      if e ≤ t.index_end then .ok (some [t])
      else (collectTokens e t rest).map some := by
  rw [scanSegments_eq, hcov]

theorem specCovering_suffix (s : Int) (l : List OCRMatch) (t : OCRMatch)
    (rest : List OCRMatch) (hcov : specCovering s l = some (t, rest)) :
    (t :: rest) <:+ l := by
  induction l with
  | nil => simp [specCovering] at hcov
  | cons sg l2 ih =>
    by_cases h : sg.index_start ≤ s ∧ s < sg.index_end
    · simp only [specCovering, if_pos h, Option.some.injEq, Prod.mk.injEq] at hcov
      exact ⟨[], by rw [hcov.1, hcov.2]; simp⟩
    · simp only [specCovering, if_neg h] at hcov
      exact (ih hcov).trans (List.suffix_cons sg l2)

/-- C1 (amended): on a match at `[s, e)` whose start lies in segment `t`,
`find_bounding_boxes` returns `[t]` alone when `e ≤ t.index_end`;
otherwise it returns `t` followed by subsequent segments in order *while
their end index is at most `e`*.  The first segment whose end index is
strictly beyond `e` is NOT included (so when the match ends strictly
inside a later segment, that segment's match positions are not covered by
the returned list); the non-inclusive collection is well defined whenever
some remaining segment's end exceeds `e` (otherwise, see the IndexError
theorem for C4). -/
theorem find_bounding_boxes_covering (m : OCRMatcher) (needle : List Char)
    (j : Nat) (t : OCRMatch) (rest : List OCRMatch)
    (hj : strFind m.parsed_text needle = some j)
    (hcov : specCovering (j : Int) m.ocr_segments = some (t, rest)) :
    ((j : Int) + needle.length ≤ t.index_end →
      m.find_bounding_boxes needle none none =
        .ok ((j : Int), (j : Int) + needle.length, [t])) ∧
    (t.index_end < (j : Int) + needle.length →
      (∃ u ∈ t :: rest, (j : Int) + needle.length < u.index_end) →
      m.find_bounding_boxes needle none none =
        .ok ((j : Int), (j : Int) + needle.length,
          (t :: rest).takeWhile fun u =>
            decide (u.index_end ≤ (j : Int) + needle.length))) := by
  rw [fbb_lit_some m needle j hj,
    scanSegments_covering _ _ _ _ _ hcov]
  constructor
  · intro hle
    rw [if_pos hle]
    simp [Except.map]
  · intro hgt hex
    rw [if_neg (not_le_of_lt hgt), collectTokens_takeWhile _ _ _ hex]
    simp [Except.map]

/-- Counterexample to C1 as stated: in the sample matcher (transcript
"ab cd", segments (0,2) "ab", (2,3) " ", (3,5) "cd") the needle "ab c"
matches at [0, 4).  The claim requires the returned list to run up to and
including the first segment whose end index is beyond 4 — the token
(3,5) — so that every match position is covered; the code instead stops
before it, returns only [(0,2), (2,3)], and leaves match position 3
covered by no returned segment. -/
theorem find_bounding_boxes_covering_cex :
    sampleM.find_bounding_boxes ['a', 'b', ' ', 'c'] none none =
      .ok (0, 4, [⟨0, 2, ⟨10, 1, 5, 3⟩, some 9⟩, ⟨2, 3, ⟨15, 1, 5, 3⟩, none⟩]) ∧
    (∀ u ∈ ([⟨0, 2, ⟨10, 1, 5, 3⟩, some 9⟩, ⟨2, 3, ⟨15, 1, 5, 3⟩, none⟩] :
        List OCRMatch),
      ¬(u.index_start ≤ 3 ∧ (3 : Int) < u.index_end)) ∧
    (⟨3, 5, ⟨20, 1, 6, 3⟩, some 4⟩ : OCRMatch) ∉
      ([⟨0, 2, ⟨10, 1, 5, 3⟩, some 9⟩, ⟨2, 3, ⟨15, 1, 5, 3⟩, none⟩] :
        List OCRMatch) := by
  refine ⟨by rfl, by decide, by decide⟩

/-- Witness for `find_bounding_boxes_covering`: searching "ab c" in the
sample matcher exercises the multi-segment branch and returns exactly the
segments whose end index is at most the match end 4. -/
theorem find_bounding_boxes_covering_witness :
    sampleM.find_bounding_boxes ['a', 'b', ' ', 'c'] none none =
      .ok ((0 : Int), (0 : Int) + (4 : Nat),
        ([⟨0, 2, ⟨10, 1, 5, 3⟩, some 9⟩, ⟨2, 3, ⟨15, 1, 5, 3⟩, none⟩,
            ⟨3, 5, ⟨20, 1, 6, 3⟩, some 4⟩] : List OCRMatch).takeWhile
          fun u => decide (u.index_end ≤ (0 : Int) + (4 : Nat))) :=
  (find_bounding_boxes_covering sampleM ['a', 'b', ' ', 'c'] 0
      ⟨0, 2, ⟨10, 1, 5, 3⟩, some 9⟩
      [⟨2, 3, ⟨15, 1, 5, 3⟩, none⟩, ⟨3, 5, ⟨20, 1, 6, 3⟩, some 4⟩]
      (by rfl) (by rfl)).2 (by decide)
    ⟨⟨3, 5, ⟨20, 1, 6, 3⟩, some 4⟩, by decide, by decide⟩

theorem tilesFrom_append (l : List OCRMatch) (a b : Int) (sg : OCRMatch)
    (h : tilesFrom l a b) (hsg : sg.index_start = b) :
    tilesFrom (l ++ [sg]) a sg.index_end := by
  induction l generalizing a with
  | nil => exact ⟨hsg.trans ((show a = b from h).symm), rfl⟩
  | cons x xs ih => exact ⟨h.1, ih x.index_end h.2⟩

theorem TilingInv_pushSeg (st : PState) (text : List Char) (reg : Region)
    (conf : Option ℚ) (h : TilingInv st) : TilingInv (st.pushSeg text reg conf) := by
  obtain ⟨ht, hmono⟩ := h
  constructor
  · show tilesFrom (_ :: st.revSegs).reverse 0 _
    rw [List.reverse_cons]
    have := tilesFrom_append st.revSegs.reverse 0 (st.str.length : Int)
      ⟨(st.str.length : Int), (st.str.length : Int) + text.length, reg, conf⟩
      ht rfl
    simpa [PState.pushSeg] using this
  · intro sg hsg
    rcases List.mem_cons.mp hsg with h1 | h2
    · subst h1
      simp
    · exact hmono sg h2

theorem TilingInv_processWords (rows : List Row) :
    ∀ (st : PState) (nl : Bool), TilingInv st →
      TilingInv (processWords st nl rows) := by
  induction rows with
  | nil => intro st nl h; exact h
  | cons r rest ih =>
    intro st nl h
    by_cases hte : r.text = []
    · rw [processWords, if_pos hte]
      exact ih st nl h
    · rw [processWords, if_neg hte]
      by_cases hc : 0 < st.str.length ∧ nl = false
      · rw [if_pos hc]
        exact ih _ _ (TilingInv_pushSeg _ _ _ _ (TilingInv_pushSeg _ _ _ _ h))
      · rw [if_neg hc]
        exact ih _ _ (TilingInv_pushSeg _ _ _ _ h)

theorem TilingInv_processLines (lineBreak : List Char) (lines : List (List Row)) :
    ∀ (st : PState) (np : Bool), TilingInv st →
      TilingInv (processLines lineBreak st np lines) := by
  induction lines with
  | nil => intro st np h; exact h
  | cons line rest ih =>
    intro st np h
    rw [processLines]
    by_cases hc : 0 < st.str.length ∧ np = false
    · rw [if_pos hc]
      exact ih _ _ (TilingInv_processWords _ _ _ (TilingInv_pushSeg _ _ _ _ h))
    · rw [if_neg hc]
      exact ih _ _ (TilingInv_processWords _ _ _ h)

theorem TilingInv_processParagraph (lineBreak paragraphBreak : List Char)
    (st : PState) (par : List (List Row)) (h : TilingInv st) :
    TilingInv (processParagraph lineBreak paragraphBreak st par) := by
  rw [processParagraph]
  by_cases hc : 0 < st.str.length
  · rw [if_pos hc]
    exact TilingInv_processLines _ _ _ _ (TilingInv_pushSeg _ _ _ _ h)
  · rw [if_neg hc]
    exact TilingInv_processLines _ _ _ _ h

theorem TilingInv_processFile (lineBreak paragraphBreak : List Char)
    (pars : List (List (List Row))) :
    TilingInv (processFile lineBreak paragraphBreak pars) := by
  have base : TilingInv ⟨[], []⟩ := ⟨rfl, by intro sg hsg; cases hsg⟩
  rw [processFile]
  generalize hst : (⟨[], []⟩ : PState) = st0 at base
  clear hst
  induction pars generalizing st0 with
  | nil => exact base
  | cons p ps ih =>
    exact ih _ (TilingInv_processParagraph _ _ _ _ base)

theorem ofInput_tilesFrom (lineBreak paragraphBreak : List Char)
    (pars : List (List (List Row))) :
    tilesFrom (OCRMatcher.ofInput lineBreak paragraphBreak pars).ocr_segments 0
        ((OCRMatcher.ofInput lineBreak paragraphBreak pars).parsed_text.length : Int) ∧
      ∀ sg ∈ (OCRMatcher.ofInput lineBreak paragraphBreak pars).ocr_segments,
        sg.index_start ≤ sg.index_end := by
  obtain ⟨h1, h2⟩ := TilingInv_processFile lineBreak paragraphBreak pars
  exact ⟨h1, fun sg hsg => h2 sg (List.mem_reverse.mp hsg)⟩

theorem tilesFrom_le (l : List OCRMatch) (a b : Int) (h : tilesFrom l a b)
    (hmono : ∀ sg ∈ l, sg.index_start ≤ sg.index_end) : a ≤ b := by
  induction l generalizing a with
  | nil => exact le_of_eq h
  | cons x xs ih =>
    have hx : x.index_start ≤ x.index_end := hmono x (by simp)
    have h2 : x.index_end ≤ b :=
      ih x.index_end h.2 (fun sg hsg => hmono sg (List.mem_cons_of_mem x hsg))
    have ha : x.index_start = a := h.1
    omega

theorem tilesFrom_bounds (l : List OCRMatch) (a b : Int) (h : tilesFrom l a b)
    (hmono : ∀ sg ∈ l, sg.index_start ≤ sg.index_end) :
    ∀ sg ∈ l, a ≤ sg.index_start ∧ sg.index_end ≤ b := by
  induction l generalizing a with
  | nil => intro sg hsg; cases hsg
  | cons x xs ih =>
    intro sg hsg
    have hmono2 : ∀ u ∈ xs, u.index_start ≤ u.index_end :=
      fun u hu => hmono u (List.mem_cons_of_mem x hu)
    rcases List.mem_cons.mp hsg with h1 | h2
    · subst h1
      refine ⟨le_of_eq h.1.symm, ?_⟩
      exact tilesFrom_le xs sg.index_end b h.2 hmono2
    · have := ih x.index_end h.2 hmono2 sg h2
      have hx : x.index_start ≤ x.index_end := hmono x (by simp)
      exact ⟨le_trans (le_of_eq h.1.symm) (le_trans hx this.1), this.2⟩

/-- C4: on a constructed matcher, a needle whose match extends beyond the
segment containing its start and ends exactly at the end of the
transcript (which, by tiling, is the last segment's `index_end`) makes
`find_bounding_boxes` raise an uncaught `IndexError`: the collection loop
indexes one position past the end of the segment list. -/
theorem find_bounding_boxes_raises (lineBreak paragraphBreak : List Char)
    (pars : List (List (List Row))) (needle : List Char) (j : Nat)
    (t : OCRMatch) (rest : List OCRMatch)
    (hj : strFind (OCRMatcher.ofInput lineBreak paragraphBreak pars).parsed_text
      needle = some j)
    (hend : j + needle.length =
      (OCRMatcher.ofInput lineBreak paragraphBreak pars).parsed_text.length)
    (hcov : specCovering (j : Int)
      (OCRMatcher.ofInput lineBreak paragraphBreak pars).ocr_segments =
        some (t, rest))
    (hbeyond : t.index_end < (j : Int) + needle.length) :
    (OCRMatcher.ofInput lineBreak paragraphBreak pars).find_bounding_boxes
      needle none none = .error .indexError := by
  obtain ⟨htiles, hmono⟩ := ofInput_tilesFrom lineBreak paragraphBreak pars
  have hall : ∀ u ∈ t :: rest, u.index_end ≤ (j : Int) + needle.length := by
    intro u hu
    have hmem : u ∈ (OCRMatcher.ofInput lineBreak paragraphBreak pars).ocr_segments :=
      (specCovering_suffix _ _ _ _ hcov).subset hu
    have hb := (tilesFrom_bounds _ _ _ htiles hmono u hmem).2
    have hcast : ((j : Int) + needle.length) =
        ((OCRMatcher.ofInput lineBreak paragraphBreak pars).parsed_text.length : Int) := by
      rw [← hend]
      push_cast
      ring
    rw [hcast]
    exact hb
  rw [fbb_lit_some _ _ _ hj, scanSegments_covering _ _ _ _ _ hcov,
    if_neg (not_le_of_lt hbeyond), collectTokens_indexError _ _ _ hall]
  rfl

/-- Witness for `find_bounding_boxes_raises`: in the sample matcher
(transcript "ab cd") the needle "b cd" matches at [1, 5); the match ends
at the transcript end while extending beyond the covering token "ab", and
the lookup raises IndexError. -/
theorem find_bounding_boxes_raises_witness :
    sampleM.find_bounding_boxes ['b', ' ', 'c', 'd'] none none =
      .error .indexError :=
  find_bounding_boxes_raises ['\n'] ['\n', '\n'] [[[rowAB, rowCD]]]
    ['b', ' ', 'c', 'd'] 1 ⟨0, 2, ⟨10, 1, 5, 3⟩, some 9⟩
    [⟨2, 3, ⟨15, 1, 5, 3⟩, none⟩, ⟨3, 5, ⟨20, 1, 6, 3⟩, some 4⟩]
    (by rfl) (by rfl) (by decide) (by decide)

theorem sliceI_append (str t : List Char) (a b : Int) (ha : 0 ≤ a)
    (hab : a ≤ b) (hb : b ≤ (str.length : Int)) :
    sliceI (str ++ t) a b = sliceI str a b := by
  unfold sliceI
  rw [List.drop_append_of_le_length (by omega), List.take_append_of_le_length]
  rw [List.length_drop]
  omega

theorem sliceI_append_self (str t : List Char) :
    sliceI (str ++ t) (str.length : Int) ((str.length : Int) + t.length) = t := by
  unfold sliceI
  have h1 : ((str.length : Int)).toNat = str.length := by omega
  have h2 : ((str.length : Int) + t.length - (str.length : Int)).toNat = t.length := by
    omega
  rw [h1, h2, List.drop_left, List.take_length]

theorem sliceI_ne_nil (str : List Char) (a b : Int) (h : sliceI str a b ≠ []) :
    a < b := by
  by_contra hc
  push_neg at hc
  apply h
  unfold sliceI
  have h0 : (b - a).toNat = 0 := by omega
  rw [h0]
  exact List.take_zero _

theorem SegOK_append (R : List Row) (lb pb : List Char) (str t : List Char)
    (sg : OCRMatch) (h : SegOK R lb pb str sg) : SegOK R lb pb (str ++ t) sg := by
  obtain ⟨h1, h2, h3, h4⟩ := h
  have hslice : sliceI (str ++ t) sg.index_start sg.index_end =
      sliceI str sg.index_start sg.index_end :=
    sliceI_append str t _ _ h1 h2 h3
  refine ⟨h1, h2, ?_, ?_⟩
  · rw [List.length_append]
    push_cast
    omega
  · rw [hslice]
    exact h4

theorem SegOK_new (R : List Row) (lb pb str text : List Char) (reg : Region)
    (conf : Option ℚ)
    (hnew : (conf = none ∧ (text = [' '] ∨ text = lb ∨ text = pb)) ∨
      ∃ r ∈ R, text = r.text ∧ conf = some r.conf ∧ reg = r.region) :
    SegOK R lb pb (str ++ text)
      ⟨(str.length : Int), (str.length : Int) + text.length, reg, conf⟩ := by
  have hslice := sliceI_append_self str text
  unfold SegOK
  simp only
  refine ⟨Int.natCast_nonneg _, by omega, ?_, ?_⟩
  · rw [List.length_append]
    push_cast
    omega
  · rw [hslice]
    rcases hnew with ⟨hc, ht⟩ | ⟨r, hr, ht, hc, hreg⟩
    · exact Or.inl ⟨hc, ht⟩
    · exact Or.inr ⟨r, hr, ht, hc, hreg⟩

theorem SliceInv_pushSeg (R : List Row) (lb pb : List Char) (st : PState)
    (text : List Char) (reg : Region) (conf : Option ℚ)
    (h : SliceInv R lb pb st)
    (hnew : (conf = none ∧ (text = [' '] ∨ text = lb ∨ text = pb)) ∨
      ∃ r ∈ R, text = r.text ∧ conf = some r.conf ∧ reg = r.region) :
    SliceInv R lb pb (st.pushSeg text reg conf) := by
  intro sg hsg
  rcases List.mem_cons.mp hsg with h1 | h2
  · subst h1
    exact SegOK_new R lb pb st.str text reg conf hnew
  · exact SegOK_append R lb pb st.str text sg (h sg h2)

theorem SliceInv_processWords (R : List Row) (lb pb : List Char)
    (rows : List Row) :
    ∀ (st : PState) (nl : Bool), (∀ r ∈ rows, r ∈ R) → SliceInv R lb pb st →
      SliceInv R lb pb (processWords st nl rows) := by
  induction rows with
  | nil => intro st nl _ h; exact h
  | cons r rest ih =>
    intro st nl hmem h
    have hr : r ∈ R := hmem r (by simp)
    have hrest : ∀ u ∈ rest, u ∈ R := fun u hu => hmem u (List.mem_cons_of_mem r hu)
    by_cases hte : r.text = []
    · rw [processWords, if_pos hte]
      exact ih st nl hrest h
    · rw [processWords, if_neg hte]
      have htok : ∀ st2 : PState, SliceInv R lb pb st2 →
          SliceInv R lb pb (st2.pushTok r) := fun st2 h2 =>
        SliceInv_pushSeg R lb pb st2 r.text r.region (some r.conf) h2
          (Or.inr ⟨r, hr, rfl, rfl, rfl⟩)
      by_cases hc : 0 < st.str.length ∧ nl = false
      · rw [if_pos hc]
        refine ih _ _ hrest (htok _ ?_)
        exact SliceInv_pushSeg R lb pb st [' '] _ none h (Or.inl ⟨rfl, Or.inl rfl⟩)
      · rw [if_neg hc]
        exact ih _ _ hrest (htok _ h)

theorem SliceInv_processLines (R : List Row) (lb pb : List Char)
    (lines : List (List Row)) :
    ∀ (st : PState) (np : Bool), (∀ line ∈ lines, ∀ r ∈ line, r ∈ R) →
      SliceInv R lb pb st →
      SliceInv R lb pb (processLines lb st np lines) := by
  induction lines with
  | nil => intro st np _ h; exact h
  | cons line rest ih =>
    intro st np hmem h
    have hline : ∀ r ∈ line, r ∈ R := hmem line (by simp)
    have hrest : ∀ l2 ∈ rest, ∀ r ∈ l2, r ∈ R :=
      fun l2 hl2 => hmem l2 (List.mem_cons_of_mem line hl2)
    rw [processLines]
    by_cases hc : 0 < st.str.length ∧ np = false
    · rw [if_pos hc]
      refine ih _ _ hrest (SliceInv_processWords R lb pb line _ _ hline ?_)
      exact SliceInv_pushSeg R lb pb st lb _ none h (Or.inl ⟨rfl, Or.inr (Or.inl rfl)⟩)
    · rw [if_neg hc]
      exact ih _ _ hrest (SliceInv_processWords R lb pb line _ _ hline h)

theorem SliceInv_processParagraph (R : List Row) (lb pb : List Char)
    (st : PState) (par : List (List Row))
    (hmem : ∀ line ∈ par, ∀ r ∈ line, r ∈ R) (h : SliceInv R lb pb st) :
    SliceInv R lb pb (processParagraph lb pb st par) := by
  rw [processParagraph]
  by_cases hc : 0 < st.str.length
  · rw [if_pos hc]
    refine SliceInv_processLines R lb pb par _ _ hmem ?_
    exact SliceInv_pushSeg R lb pb st pb _ none h (Or.inl ⟨rfl, Or.inr (Or.inr rfl)⟩)
  · rw [if_neg hc]
    exact SliceInv_processLines R lb pb par _ _ hmem h

theorem SliceInv_processFile (lb pb : List Char) (pars : List (List (List Row))) :
    SliceInv (allRows pars) lb pb (processFile lb pb pars) := by
  have hmemAll : ∀ par ∈ pars, ∀ line ∈ par, ∀ r ∈ line, r ∈ allRows pars := by
    intro par hpar line hline r hr
    simp only [allRows, List.mem_flatten, List.mem_map]
    exact ⟨par.flatten, ⟨par, hpar, rfl⟩, List.mem_flatten.mpr ⟨line, hline, hr⟩⟩
  have base : SliceInv (allRows pars) lb pb ⟨[], []⟩ := by
    intro sg hsg; cases hsg
  rw [processFile]
  have main : ∀ (ps : List (List (List Row))) (st : PState),
      (∀ par ∈ ps, ∀ line ∈ par, ∀ r ∈ line, r ∈ allRows pars) →
      SliceInv (allRows pars) lb pb st →
      SliceInv (allRows pars) lb pb (ps.foldl (processParagraph lb pb) st) := by
    intro ps
    induction ps with
    | nil => intro st _ h; exact h
    | cons p ps2 ih =>
      intro st hmem h
      exact ih _ (fun par hpar => hmem par (List.mem_cons_of_mem p hpar))
        (SliceInv_processParagraph _ lb pb st p (hmem p (by simp)) h)
  exact main pars ⟨[], []⟩ hmemAll base

/-- C5: round-trip offsets on a constructed matcher.  Every segment's
slice `transcript[index_start:index_end]` is exactly the text that
produced it: the single space, the configured line-break string or the
configured paragraph-break string for a glue segment (`confidence =
none`), and the recognized text of one of the input rows — with that
row's own confidence and pixel box — for a token segment. -/
theorem ofInput_round_trip (lb pb : List Char) (pars : List (List (List Row))) :
    ∀ sg ∈ (OCRMatcher.ofInput lb pb pars).ocr_segments,
      SegOK (allRows pars) lb pb (OCRMatcher.ofInput lb pb pars).parsed_text sg := by
  intro sg hsg
  exact SliceInv_processFile lb pb pars sg (List.mem_reverse.mp hsg)

/-- Witness for `ofInput_round_trip`: in the two-paragraph sample
matcher, the line-break glue segment (5,6) slices to "\n" and the token
segment (6,8) slices to "ok". -/
theorem ofInput_round_trip_witness :
    SegOK (allRows [[[rowPy, rowIs], [rowOk]], [[rowZz]]]) ['\n'] ['\n', '\n']
        sampleM2.parsed_text ⟨5, 6, ⟨330, 29, -303, 32⟩, none⟩ ∧
      SegOK (allRows [[[rowPy, rowIs], [rowOk]], [[rowZz]]]) ['\n'] ['\n', '\n']
        sampleM2.parsed_text ⟨6, 8, ⟨27, 84, 36, 12⟩, some 97⟩ :=
  ⟨ofInput_round_trip ['\n'] ['\n', '\n'] [[[rowPy, rowIs], [rowOk]], [[rowZz]]]
      ⟨5, 6, ⟨330, 29, -303, 32⟩, none⟩ (by decide),
    ofInput_round_trip ['\n'] ['\n', '\n'] [[[rowPy, rowIs], [rowOk]], [[rowZz]]]
      ⟨6, 8, ⟨27, 84, 36, 12⟩, some 97⟩ (by decide)⟩

theorem tilesFrom_headQ : ∀ (l : List OCRMatch) (a b : Int), tilesFrom l a b →
    ∀ sg, l.head? = some sg → sg.index_start = a := by
  intro l a b h sg hsg
  cases l with
  | nil => cases hsg
  | cons x xs =>
    simp only [List.head?_cons, Option.some.injEq] at hsg
    subst hsg
    exact h.1

theorem tilesFrom_getLastQ : ∀ (l : List OCRMatch) (a b : Int), tilesFrom l a b →
    ∀ sg, l.getLast? = some sg → sg.index_end = b := by
  intro l
  induction l with
  | nil => intro a b _ sg hsg; cases hsg
  | cons x xs ih =>
    intro a b h sg hsg
    cases xs with
    | nil =>
      simp only [List.getLast?_singleton, Option.some.injEq] at hsg
      subst hsg
      exact h.2
    | cons y ys =>
      rw [List.getLast?_cons_cons] at hsg
      exact ih x.index_end b h.2 sg hsg

theorem tilesFrom_adjacent : ∀ (l : List OCRMatch) (a b : Int),
    tilesFrom l a b → ∀ (i : Nat) (hi : i + 1 < l.length),
      (l.get ⟨i, Nat.lt_of_succ_lt hi⟩).index_end =
        (l.get ⟨i + 1, hi⟩).index_start := by
  intro l
  induction l with
  | nil => intro a b _ i hi; simp at hi
  | cons x xs ih =>
    intro a b h i hi
    cases i with
    | zero =>
      cases xs with
      | nil => simp at hi
      | cons y ys => exact h.2.1.symm
    | succ i2 =>
      have hi2 : i2 + 1 < xs.length := by simpa using hi
      exact ih x.index_end b h.2 i2 hi2

/-- C6: the constructed segment list tiles the transcript contiguously —
adjacent segments satisfy `segs[i].index_end = segs[i+1].index_start`,
the first segment starts at 0, the last ends at `len(transcript)` — and
when the break strings (and token texts) are nonempty every segment
satisfies `index_start < index_end`. -/
theorem ofInput_monotone_segments (lb pb : List Char)
    (pars : List (List (List Row))) :
    tilesFrom (OCRMatcher.ofInput lb pb pars).ocr_segments 0
        ((OCRMatcher.ofInput lb pb pars).parsed_text.length : Int) ∧
      (∀ (i : Nat)
        (hi : i + 1 < (OCRMatcher.ofInput lb pb pars).ocr_segments.length),
        ((OCRMatcher.ofInput lb pb pars).ocr_segments.get
            ⟨i, Nat.lt_of_succ_lt hi⟩).index_end =
          ((OCRMatcher.ofInput lb pb pars).ocr_segments.get
            ⟨i + 1, hi⟩).index_start) ∧
      (∀ sg, (OCRMatcher.ofInput lb pb pars).ocr_segments.head? = some sg →
        sg.index_start = 0) ∧
      (∀ sg, (OCRMatcher.ofInput lb pb pars).ocr_segments.getLast? = some sg →
        sg.index_end =
          ((OCRMatcher.ofInput lb pb pars).parsed_text.length : Int)) ∧
      (lb ≠ [] → pb ≠ [] → (∀ r ∈ allRows pars, r.text ≠ []) →
        ∀ sg ∈ (OCRMatcher.ofInput lb pb pars).ocr_segments,
          sg.index_start < sg.index_end) := by
  obtain ⟨htiles, _⟩ := ofInput_tilesFrom lb pb pars
  refine ⟨htiles, tilesFrom_adjacent _ _ _ htiles,
    tilesFrom_headQ _ _ _ htiles, tilesFrom_getLastQ _ _ _ htiles, ?_⟩
  intro hlb hpb htext sg hsg
  obtain ⟨_, _, _, h4⟩ := SliceInv_processFile lb pb pars sg (List.mem_reverse.mp hsg)
  rcases h4 with ⟨_, hs | hs | hs⟩ | ⟨r, hr, hs, _, _⟩
  · exact sliceI_ne_nil _ _ _ (by rw [hs]; exact List.cons_ne_nil _ _)
  · exact sliceI_ne_nil _ _ _ (by rw [hs]; exact hlb)
  · exact sliceI_ne_nil _ _ _ (by rw [hs]; exact hpb)
  · exact sliceI_ne_nil _ _ _ (by rw [hs]; exact htext r hr)

/-- Witness for `ofInput_monotone_segments`: the two-paragraph sample
matcher tiles `[0, 12)` and all its segments are strictly increasing. -/
theorem ofInput_monotone_segments_witness :
    tilesFrom sampleM2.ocr_segments 0 12 ∧
      ∀ sg ∈ sampleM2.ocr_segments, sg.index_start < sg.index_end := by
  have h := ofInput_monotone_segments ['\n'] ['\n', '\n']
    [[[rowPy, rowIs], [rowOk]], [[rowZz]]]
  exact ⟨h.1, h.2.2.2.2 (by decide) (by decide) (by decide)⟩

/-- Helper: sentinel on no occurrence in the effective window; returned
match indices are the window-relative first occurrence offset back by the
effective start. -/
theorem fbb_search_window_aux (m : OCRMatcher) (needle : List Char)
    (startArg endArg : Option Nat) :
    (strFind (m.window startArg endArg) needle = none →
      m.find_bounding_boxes needle startArg endArg = .ok (-1, -1, [])) ∧
    (∀ j, strFind (m.window startArg endArg) needle = some j →
      ∀ s e toks, m.find_bounding_boxes needle startArg endArg = .ok (s, e, toks) →
        toks ≠ [] →
        s = (j : Int) + (m.effStart startArg : Int) ∧
        e = (j : Int) + needle.length + (m.effStart startArg : Int)) := by
  constructor
  · intro h
    exact ((sentinel_of_no_occurrence m needle (fun _ => none) startArg endArg).1 h).1
  · intro j hj s e toks heq hne
    unfold OCRMatcher.find_bounding_boxes OCRMatcher.fbbWith litSearch at heq
    rw [hj] at heq
    simp only [Option.map_some'] at heq
    cases hscan : scanSegments ((j : Int) + (m.effStart startArg : Int))
        (((j + needle.length : Nat) : Int) + (m.effStart startArg : Int))
        m.ocr_segments with
    | error err =>
      rw [hscan] at heq
      simp [Except.map] at heq
    | ok o =>
      rw [hscan] at heq
      cases o with
      | none =>
        simp only [Except.map, Except.ok.injEq, Prod.mk.injEq] at heq
        exact absurd heq.2.2.symm hne
      | some toks0 =>
        simp only [Except.map, Except.ok.injEq, Prod.mk.injEq] at heq
        refine ⟨heq.1.symm, ?_⟩
        rw [← heq.2.1]
        push_cast
        ring

/-- C7 (amended): the search is restricted to the *effective* window
`transcript[start:end]`, where — because the source defaults the
arguments with Python `or` (`start = start or 0`,
`end = end or len(text)`) — a `start` of `None`/0 becomes 0 and an `end`
of `None`/0 becomes `len(transcript)` (so an empty window cannot be
requested via `end=0`; see the counterexample).  If the needle has no
occurrence in the effective window the result is the sentinel
`(-1, -1, [])`; and any returned match carries the window-relative first
occurrence offset back into full-transcript coordinates. -/
theorem fbb_search_window (m : OCRMatcher) (needle : List Char)
    (startArg endArg : Option Nat) :
    (strFind (m.window startArg endArg) needle = none →
      m.find_bounding_boxes needle startArg endArg = .ok (-1, -1, [])) ∧
    (∀ j, strFind (m.window startArg endArg) needle = some j →
      ∀ s e toks, m.find_bounding_boxes needle startArg endArg = .ok (s, e, toks) →
        toks ≠ [] →
        s = (j : Int) + (m.effStart startArg : Int) ∧
        e = (j : Int) + needle.length + (m.effStart startArg : Int)) :=
  fbb_search_window_aux m needle startArg endArg

/-- Counterexample to C7 as stated: in the sample matcher (transcript
"ab cd") the call `find_bounding_boxes("ab", end=0)` has an *empty*
window `transcript[0:0]`, and the only occurrence of "ab" lies outside
it, so the claim requires the sentinel `(-1, -1, [])`; but the source
defaults `end` with `end or len(text)`, so `end=0` selects the whole
transcript and the code returns the match at (0, 2). -/
theorem fbb_search_window_cex :
    sampleM.find_bounding_boxes ['a', 'b'] none (some 0) =
      .ok (0, 2, [⟨0, 2, ⟨10, 1, 5, 3⟩, some 9⟩]) ∧
    sampleM.find_bounding_boxes ['a', 'b'] none (some 0) ≠ .ok (-1, -1, []) :=
  ⟨by rfl, by decide⟩

/-- Witness for `fbb_search_window`: searching "cd" with `start=1` in the
sample matcher finds the window-relative occurrence at 2 and offsets it
back to full-transcript coordinates (3, 5). -/
theorem fbb_search_window_witness :
    (3 : Int) = ((2 : Nat) : Int) + (sampleM.effStart (some 1) : Int) ∧
    (5 : Int) = ((2 : Nat) : Int) + (['c', 'd'] : List Char).length +
      (sampleM.effStart (some 1) : Int) :=
  (fbb_search_window sampleM ['c', 'd'] (some 1) none).2 2 (by rfl) 3 5
    [⟨3, 5, ⟨20, 1, 6, 3⟩, some 4⟩] (by rfl) (by decide)

/-- C10 (evaluation at the failing input): with `timeout = -1` and
`scans_per_second = 2` — so `timeout * scans_per_second = -2 ≤ 0` — both
wait helpers return without invoking `find_method` even once, because the
initialisation `scan_count = -1` only forces an iteration when
`timeout * scans_per_second > -1`.  This contradicts the source's own
comment ("We want the loop to occur at least once") and the spec.  At
`timeout = 0` (also `timeout * scans_per_second ≤ 0`) exactly one scan
happens, as the comment intends. -/
theorem wait_helpers_zero_scans :
    waitUntilNeedleAppears (-1 : ℚ) 2 (fun _ => [0]) = (0, []) ∧
    waitUntilNeedleVanishes (-1 : ℚ) 2 (fun _ => ([] : List Nat)) = (0, false) ∧
    waitUntilNeedleAppears (0 : ℚ) 2 (fun _ => [0]) = (1, [0]) ∧
    waitUntilNeedleVanishes (0 : ℚ) 2 (fun _ => ([] : List Nat)) = (1, true) := by
  refine ⟨?_, ?_, ?_, ?_⟩
  · unfold waitUntilNeedleAppears
    rw [if_neg (by norm_num)]
    unfold waitAppearsAux
    rw [dif_neg (by push_cast; norm_num)]
  · unfold waitUntilNeedleVanishes
    rw [if_neg (by norm_num)]
    unfold waitVanishesAux
    rw [dif_neg (by push_cast; norm_num)]
  · unfold waitUntilNeedleAppears
    rw [if_neg (by norm_num)]
    unfold waitAppearsAux
    rw [dif_pos (by push_cast; norm_num)]
    norm_num
  · unfold waitUntilNeedleVanishes
    rw [if_neg (by norm_num)]
    unfold waitVanishesAux
    rw [dif_pos (by push_cast; norm_num)]
    norm_num

theorem effStart_some (m : OCRMatcher) (k : Nat) : m.effStart (some k) = k := by
  cases k <;> rfl

theorem scanSegments_ok_some (s e : Int) (l : List OCRMatch)
    (toks : List OCRMatch) (h : scanSegments s e l = .ok (some toks)) :
    toks ≠ [] := by
  induction l with
  | nil => simp [scanSegments] at h
  | cons t rest ih =>
    by_cases hc : t.index_start ≤ s ∧ s < t.index_end
    · rw [scanSegments, if_pos hc] at h
      by_cases he : e ≤ t.index_end
      · rw [if_pos he] at h
        obtain rfl : [t] = toks := by simpa using h
        simp
      · rw [if_neg he] at h
        push_neg at he
        cases rest with
        | nil => simp [collectTokens, le_of_lt he, Except.map] at h
        | cons u us =>
          rw [collectTokens, if_pos (le_of_lt he)] at h
          cases hcol : collectTokens e u us with
          | error err => rw [hcol] at h; simp [Except.map] at h
          | ok l2 =>
            rw [hcol] at h
            simp only [Except.map, Except.ok.injEq, Option.some.injEq] at h
            rw [← h]
            simp
    · rw [scanSegments, if_neg hc] at h
      exact ih h

theorem fbb_ok_shape (m : OCRMatcher) (needle : List Char)
    (startArg endArg : Option Nat) (s e : Int) (toks : List OCRMatch)
    (h : m.find_bounding_boxes needle startArg endArg = .ok (s, e, toks)) :
    (s = -1 ∧ e = -1 ∧ toks = []) ∨ toks ≠ [] := by
  unfold OCRMatcher.find_bounding_boxes OCRMatcher.fbbWith litSearch at h
  cases hf : strFind (m.window startArg endArg) needle with
  | none =>
    rw [hf] at h
    simp only [Option.map_none', Except.ok.injEq, Prod.mk.injEq] at h
    exact Or.inl ⟨h.1.symm, h.2.1.symm, h.2.2.symm⟩
  | some j =>
    rw [hf] at h
    simp only [Option.map_some'] at h
    cases hscan : scanSegments ((j : Int) + (m.effStart startArg : Int))
        (((j + needle.length : Nat) : Int) + (m.effStart startArg : Int))
        m.ocr_segments with
    | error err => rw [hscan] at h; simp [Except.map] at h
    | ok o =>
      rw [hscan] at h
      cases o with
      | none =>
        simp only [Except.map, Except.ok.injEq, Prod.mk.injEq] at h
        exact Or.inl ⟨h.1.symm, h.2.1.symm, h.2.2.symm⟩
      | some toks0 =>
        simp only [Except.map, Except.ok.injEq, Prod.mk.injEq] at h
        rw [← h.2.2]
        exact Or.inr (scanSegments_ok_some _ _ _ _ hscan)

theorem fbb_start_bounds (m : OCRMatcher) (needle : List Char) (start : Nat)
    (s e : Int) (toks : List OCRMatch)
    (h : m.find_bounding_boxes needle (some start) none = .ok (s, e, toks))
    (hne : toks ≠ []) : (start : Int) ≤ s ∧ e = s + needle.length := by
  cases hf : strFind (m.window (some start) none) needle with
  | none =>
    have hsent :=
      ((sentinel_of_no_occurrence m needle (fun _ => none) (some start) none).1 hf).1
    rw [hsent] at h
    simp only [Except.ok.injEq, Prod.mk.injEq] at h
    exact absurd h.2.2.symm hne
  | some j =>
    obtain ⟨hs, he⟩ := (fbb_search_window_aux m needle (some start) none).2 j hf s e
      toks h hne
    rw [effStart_some] at hs he
    constructor
    · rw [hs]; omega
    · rw [he, hs]; ring

theorem fbbAllAux_sorted (m : OCRMatcher) (needle : List Char) (hn : needle ≠ []) :
    ∀ (fuel start : Nat) (rs : List (Int × Int × List OCRMatch)),
      m.fbbAllAux needle fuel start = .ok rs →
      (∀ r ∈ rs, (start : Int) ≤ r.1 ∧ r.2.2 ≠ []) ∧
        List.Chain' (fun a b => a.1 < b.1) rs := by
  intro fuel
  induction fuel with
  | zero =>
    intro start rs h
    obtain rfl : ([] : List (Int × Int × List OCRMatch)) = rs := by
      simpa [OCRMatcher.fbbAllAux] using h
    exact ⟨by simp, by simp⟩
  | succ fuel ih =>
    intro start rs h
    rw [OCRMatcher.fbbAllAux] at h
    cases hfbb : m.find_bounding_boxes needle (some start) none with
    | error err => rw [hfbb] at h; simp [Except.bind] at h
    | ok r =>
      rw [hfbb] at h
      simp only [Except.bind] at h
      by_cases hr : r = (-1, -1, [])
      · rw [if_pos hr] at h
        obtain rfl : ([] : List (Int × Int × List OCRMatch)) = rs := by
          simpa using h
        exact ⟨by simp, by simp⟩
      · rw [if_neg hr] at h
        obtain ⟨s, e, toks⟩ := r
        have htoks : toks ≠ [] := by
          rcases fbb_ok_shape m needle (some start) none s e toks hfbb with
            ⟨h1, h2, h3⟩ | h2
          · exact absurd (by rw [h1, h2, h3]) hr
          · exact h2
        obtain ⟨hs, he⟩ := fbb_start_bounds m needle start s e toks hfbb htoks
        have h2 : (m.fbbAllAux needle fuel e.toNat).map ((s, e, toks) :: ·) =
            .ok rs := h
        cases haux : m.fbbAllAux needle fuel e.toNat with
        | error err => rw [haux] at h2; simp [Except.map] at h2
        | ok rs0 =>
          rw [haux] at h2
          simp only [Except.map, Except.ok.injEq] at h2
          subst h2
          obtain ⟨ihmem, ihchain⟩ := ih e.toNat rs0 haux
          have hlen : 0 < needle.length := List.length_pos.mpr hn
          have hse : s < e := by omega
          have he0 : (0 : Int) ≤ e := by omega
          have hecast : (e.toNat : Int) = e := Int.toNat_of_nonneg he0
          constructor
          · intro x hx
            rcases List.mem_cons.mp hx with h1 | h1
            · subst h1; exact ⟨hs, htoks⟩
            · obtain ⟨hx1, hx2⟩ := ihmem x h1
              rw [hecast] at hx1
              exact ⟨by omega, hx2⟩
          · rw [List.chain'_cons']
            refine ⟨?_, ihchain⟩
            intro y hy
            have hymem : y ∈ rs0 := List.mem_of_mem_head? hy
            have hy1 := (ihmem y hymem).1
            rw [hecast] at hy1
            show s < y.1
            omega

theorem find_ok_some (m : OCRMatcher) (needle : List Char)
    (startArg endArg : Option Nat) (mch : OCRMatch)
    (h : m.find needle startArg endArg = .ok (some mch)) :
    ∃ toks, m.find_bounding_boxes needle startArg endArg =
      .ok (mch.index_start, mch.index_end, toks) ∧ toks ≠ [] := by
  unfold OCRMatcher.find OCRMatcher.findWith at h
  cases hfbb : m.fbbWith (litSearch needle) startArg endArg with
  | error err => rw [hfbb] at h; simp [Except.bind] at h
  | ok r =>
    rw [hfbb] at h
    obtain ⟨s, e, toks⟩ := r
    cases toks with
    | nil => simp [Except.bind] at h
    | cons b bs =>
      simp only [Except.bind] at h
      cases hflt : (b :: bs).filterMap OCRMatch.confidence with
      | nil => rw [hflt] at h; simp at h
      | cons c cs =>
        rw [hflt] at h
        simp only [Except.ok.injEq, Option.some.injEq] at h
        refine ⟨b :: bs, ?_, by simp⟩
        rw [← h]
        exact hfbb

theorem findAllAux_sorted (m : OCRMatcher) (needle : List Char) (hn : needle ≠ []) :
    ∀ (fuel start : Nat) (ms : List OCRMatch),
      m.findAllAux needle fuel start = .ok ms →
      (∀ x ∈ ms, (start : Int) ≤ x.index_start) ∧
        List.Chain' (fun a b => a.index_start < b.index_start) ms := by
  intro fuel
  induction fuel with
  | zero =>
    intro start ms h
    obtain rfl : ([] : List OCRMatch) = ms := by
      simpa [OCRMatcher.findAllAux] using h
    exact ⟨by simp, by simp⟩
  | succ fuel ih =>
    intro start ms h
    rw [OCRMatcher.findAllAux] at h
    cases hfind : m.find needle (some start) none with
    | error err => rw [hfind] at h; simp [Except.bind] at h
    | ok o =>
      rw [hfind] at h
      cases o with
      | none =>
        simp only [Except.bind] at h
        obtain rfl : ([] : List OCRMatch) = ms := by simpa using h
        exact ⟨by simp, by simp⟩
      | some mch =>
        simp only [Except.bind] at h
        obtain ⟨toks, hfbb, htoks⟩ := find_ok_some m needle (some start) none mch
          hfind
        obtain ⟨hs, he⟩ := fbb_start_bounds m needle start mch.index_start
          mch.index_end toks hfbb htoks
        cases haux : m.findAllAux needle fuel mch.index_end.toNat with
        | error err => rw [haux] at h; simp [Except.map] at h
        | ok ms0 =>
          rw [haux] at h
          simp only [Except.map, Except.ok.injEq] at h
          subst h
          obtain ⟨ihmem, ihchain⟩ := ih mch.index_end.toNat ms0 haux
          have hlen : 0 < needle.length := List.length_pos.mpr hn
          have hse : mch.index_start < mch.index_end := by omega
          have he0 : (0 : Int) ≤ mch.index_end := by omega
          have hecast : (mch.index_end.toNat : Int) = mch.index_end :=
            Int.toNat_of_nonneg he0
          constructor
          · intro x hx
            rcases List.mem_cons.mp hx with h1 | h1
            · subst h1; exact hs
            · have hx1 := ihmem x h1
              rw [hecast] at hx1
              omega
          · rw [List.chain'_cons']
            refine ⟨?_, ihchain⟩
            intro y hy
            have hy1 := ihmem y (List.mem_of_mem_head? hy)
            rw [hecast] at hy1
            show mch.index_start < y.index_start
            omega

/-- C8: `find_bounding_boxes_all` / `find_all` (modelled from the spec,
see `OCRMatcher.fbbAllAux` and `OCRMatcher.findAllAux`) repeatedly invoke
`find_bounding_boxes` / `find`, advancing the search start past the
previous match's end; for any nonempty needle the collected results are
all non-sentinel / non-null and are ordered first-to-last by start index
in the transcript (strictly increasing match starts). -/
theorem find_all_ordered (m : OCRMatcher) (needle : List Char)
    (hn : needle ≠ []) :
    (∀ rs, m.find_bounding_boxes_all needle = .ok rs →
      (∀ r ∈ rs, r.2.2 ≠ []) ∧ List.Chain' (fun a b => a.1 < b.1) rs) ∧
    (∀ ms, m.find_all needle = .ok ms →
      List.Chain' (fun a b => a.index_start < b.index_start) ms) := by
  constructor
  · intro rs h
    obtain ⟨hmem, hchain⟩ := fbbAllAux_sorted m needle hn _ 0 rs h
    exact ⟨fun r hr => (hmem r hr).2, hchain⟩
  · intro ms h
    exact (findAllAux_sorted m needle hn _ 0 ms h).2

/-- Witness for `find_all_ordered`: searching "z" in the two-paragraph
sample matcher (transcript ending in "zz") yields the two matches
(10, 11) and (11, 12) in left-to-right order. -/
theorem find_all_ordered_witness :
    ((∀ r ∈ ([(10, 11, [⟨10, 12, ⟨50, 106, 79, 12⟩, some 93⟩]),
        (11, 12, [⟨10, 12, ⟨50, 106, 79, 12⟩, some 93⟩])] :
          List (Int × Int × List OCRMatch)), r.2.2 ≠ []) ∧
      List.Chain' (fun a b => a.1 < b.1)
        ([(10, 11, [⟨10, 12, ⟨50, 106, 79, 12⟩, some 93⟩]),
          (11, 12, [⟨10, 12, ⟨50, 106, 79, 12⟩, some 93⟩])] :
            List (Int × Int × List OCRMatch))) ∧
    List.Chain' (fun a b => a.index_start < b.index_start)
      ([⟨10, 11, ⟨50, 106, 79, 12⟩, some 93⟩,
        ⟨11, 12, ⟨50, 106, 79, 12⟩, some 93⟩] : List OCRMatch) := by
  have h := find_all_ordered sampleM2 ['z'] (by decide)
  exact ⟨h.1 _ (by rfl), h.2 _ (by rfl)⟩

theorem revGlueWF_tail (x : OCRMatch) (l : List OCRMatch)
    (h : revGlueWF (x :: l)) : revGlueWF l := by
  cases l with
  | nil => trivial
  | cons y l2 =>
    cases l2 with
    | nil => trivial
    | cons z l3 => exact h.2

theorem revGlueWF_cons_tok (n : OCRMatch) (old : List OCRMatch)
    (hWF : revGlueWF old) (hhead : headTok old) : revGlueWF (n :: old) := by
  cases old with
  | nil => trivial
  | cons b old2 =>
    cases old2 with
    | nil => trivial
    | cons a old3 =>
      refine ⟨?_, hWF⟩
      intro hb
      have hb2 : b.confidence.isSome = true := hhead
      rw [hb] at hb2
      simp at hb2

theorem GlueInv_pushTok (st : PState) (r : Row) (h : GlueInv st)
    (htext : r.text ≠ []) : GlueInv (st.pushTok r) := by
  obtain ⟨hWF, hhead, hlast, hiff⟩ := h
  refine ⟨revGlueWF_cons_tok _ _ hWF hhead, rfl, ?_, ?_⟩
  · show lastTok (_ :: st.revSegs)
    cases hrev : st.revSegs with
    | nil => exact rfl
    | cons x xs =>
      show lastTok (x :: xs)
      rw [← hrev]
      exact hlast
  · constructor
    · intro habs
      exact absurd habs (by simp [PState.pushTok, PState.pushSeg, htext])
    · intro habs
      exact absurd habs (by simp [PState.pushTok, PState.pushSeg])

theorem GlueInv_pushGlueTok (st : PState) (g : List Char) (r : Row)
    (h : GlueInv st) (hstr : st.str ≠ []) (htext : r.text ≠ []) :
    GlueInv ((st.pushGlue g r.left).pushTok r) := by
  obtain ⟨hWF, hhead, hlast, hiff⟩ := h
  have hne : st.revSegs ≠ [] := fun hnil => hstr (hiff.mpr hnil)
  obtain ⟨a, old2, heq⟩ := List.exists_cons_of_ne_nil hne
  have hprev : st.prevRegion = a.region := by
    rw [PState.prevRegion, heq, List.headD_cons]
  refine ⟨?_, rfl, ?_, ?_⟩
  · show revGlueWF (_ :: _ :: st.revSegs)
    rw [heq]
    refine ⟨?_, ?_⟩
    · intro _
      show Region.from_coordinates st.prevRegion.right st.prevRegion.top
          r.left st.prevRegion.bottom =
        Region.from_coordinates a.region.right a.region.top
          (Row.region r).left a.region.bottom
      rw [hprev]
      rfl
    · cases old2 with
      | nil => trivial
      | cons a2 old3 =>
        refine ⟨?_, ?_⟩
        · intro ha
          rw [heq] at hhead
          have ha2 : a.confidence.isSome = true := hhead
          rw [ha] at ha2
          simp at ha2
        · rw [heq] at hWF
          exact hWF
  · show lastTok (_ :: _ :: st.revSegs)
    rw [heq]
    show lastTok (a :: old2)
    rw [← heq]
    exact hlast
  · constructor
    · intro habs
      exact absurd habs
        (by simp [PState.pushTok, PState.pushGlue, PState.pushSeg, htext])
    · intro habs
      exact absurd habs (by simp [PState.pushTok, PState.pushGlue, PState.pushSeg])

theorem GlueInv_processWords (rows : List Row) :
    ∀ (st : PState) (nl : Bool), GlueInv st → (∀ r ∈ rows, r.text ≠ []) →
      GlueInv (processWords st nl rows) := by
  induction rows with
  | nil => intro st nl h _; exact h
  | cons r rest ih =>
    intro st nl h hmem
    have hr : r.text ≠ [] := hmem r (by simp)
    have hrest : ∀ u ∈ rest, u.text ≠ [] :=
      fun u hu => hmem u (List.mem_cons_of_mem r hu)
    rw [processWords, if_neg hr]
    by_cases hc : 0 < st.str.length ∧ nl = false
    · rw [if_pos hc]
      exact ih _ _ (GlueInv_pushGlueTok st [' '] r h
        (List.length_pos.mp hc.1) hr) hrest
    · rw [if_neg hc]
      exact ih _ _ (GlueInv_pushTok st r h hr) hrest

theorem GlueInv_processWords_after_glue (g : List Char) (r : Row)
    (rest : List Row) (st : PState) (h : GlueInv st) (hstr : st.str ≠ [])
    (hr : r.text ≠ []) (hrest : ∀ u ∈ rest, u.text ≠ []) :
    GlueInv (processWords (st.pushGlue g r.left) true (r :: rest)) := by
  rw [processWords, if_neg hr, if_neg (by simp)]
  exact GlueInv_processWords rest _ false (GlueInv_pushGlueTok st g r h hstr hr)
    hrest

theorem GlueInv_processLines (lb : List Char) (lines : List (List Row)) :
    ∀ (st : PState) (np : Bool), GlueInv st →
      (∀ line ∈ lines, line ≠ [] ∧ ∀ r ∈ line, r.text ≠ []) →
      GlueInv (processLines lb st np lines) := by
  induction lines with
  | nil => intro st np h _; exact h
  | cons line rest ih =>
    intro st np h hmem
    obtain ⟨hlne, hltext⟩ := hmem line (by simp)
    have hrest : ∀ l2 ∈ rest, l2 ≠ [] ∧ ∀ r ∈ l2, r.text ≠ [] :=
      fun l2 hl2 => hmem l2 (List.mem_cons_of_mem line hl2)
    obtain ⟨r, lrest, rfl⟩ := List.exists_cons_of_ne_nil hlne
    have hr : r.text ≠ [] := hltext r (by simp)
    have hlrest : ∀ u ∈ lrest, u.text ≠ [] :=
      fun u hu => hltext u (List.mem_cons_of_mem r hu)
    rw [processLines]
    by_cases hc : 0 < st.str.length ∧ np = false
    · rw [if_pos hc, List.headD_cons]
      exact ih _ _ (GlueInv_processWords_after_glue lb r lrest st h
        (List.length_pos.mp hc.1) hr hlrest) hrest
    · rw [if_neg hc]
      exact ih _ _ (GlueInv_processWords (r :: lrest) st true h hltext) hrest

theorem GlueInv_processParagraph (lb pb : List Char) (st : PState)
    (par : List (List Row)) (h : GlueInv st) (hne : par ≠ [])
    (hwf : ∀ line ∈ par, line ≠ [] ∧ ∀ r ∈ line, r.text ≠ []) :
    GlueInv (processParagraph lb pb st par) := by
  obtain ⟨line, plines, rfl⟩ := List.exists_cons_of_ne_nil hne
  obtain ⟨hlne, hltext⟩ := hwf line (by simp)
  obtain ⟨r, lrest, rfl⟩ := List.exists_cons_of_ne_nil hlne
  have hr : r.text ≠ [] := hltext r (by simp)
  have hlrest : ∀ u ∈ lrest, u.text ≠ [] :=
    fun u hu => hltext u (List.mem_cons_of_mem r hu)
  have hplines : ∀ l2 ∈ plines, l2 ≠ [] ∧ ∀ u ∈ l2, u.text ≠ [] :=
    fun l2 hl2 => hwf l2 (List.mem_cons_of_mem _ hl2)
  rw [processParagraph]
  by_cases hc : 0 < st.str.length
  · rw [if_pos hc, List.headD_cons, List.headD_cons, processLines,
      if_neg (by simp)]
    exact GlueInv_processLines lb plines _ false
      (GlueInv_processWords_after_glue pb r lrest st h
        (List.length_pos.mp hc) hr hlrest) hplines
  · rw [if_neg hc]
    exact GlueInv_processLines lb ((r :: lrest) :: plines) st true h
      (fun l2 hl2 => hwf l2 hl2)

theorem GlueInv_processFile (lb pb : List Char) (pars : List (List (List Row)))
    (hwf : WFInput pars) : GlueInv (processFile lb pb pars) := by
  have base : GlueInv ⟨[], []⟩ :=
    ⟨trivial, trivial, trivial, by constructor <;> intro <;> rfl⟩
  rw [processFile]
  have main : ∀ (ps : List (List (List Row))) (st : PState),
      (∀ par ∈ ps, par ≠ [] ∧ ∀ line ∈ par, line ≠ [] ∧ ∀ r ∈ line, r.text ≠ []) →
      GlueInv st → GlueInv (ps.foldl (processParagraph lb pb) st) := by
    intro ps
    induction ps with
    | nil => intro st _ h; exact h
    | cons p ps2 ih =>
      intro st hmem h
      obtain ⟨hpne, hpwf⟩ := hmem p (by simp)
      exact ih _ (fun par hpar => hmem par (List.mem_cons_of_mem p hpar))
        (GlueInv_processParagraph lb pb st p h hpne hpwf)
  exact main pars ⟨[], []⟩ hwf base

theorem revGlueWF_split : ∀ (l : List OCRMatch), revGlueWF l →
    ∀ (pre : List OCRMatch) (c b a : OCRMatch) (post : List OCRMatch),
      l = pre ++ c :: b :: a :: post → b.confidence = none →
      b.region = Region.from_coordinates a.region.right a.region.top
        c.region.left a.region.bottom := by
  intro l
  induction l with
  | nil =>
    intro _ pre c b a post heq
    cases pre <;> simp at heq
  | cons x L ih =>
    intro h pre c b a post heq hglue
    cases pre with
    | nil =>
      simp only [List.nil_append, List.cons.injEq] at heq
      obtain ⟨rfl, rfl⟩ := heq
      exact h.1 hglue
    | cons p pre2 =>
      simp only [List.cons_append, List.cons.injEq] at heq
      exact ih (revGlueWF_tail x L h) pre2 c b a post heq.2 hglue

theorem headTok_headQ (l : List OCRMatch) (h : headTok l) (sg : OCRMatch)
    (hsg : l.head? = some sg) : sg.confidence.isSome = true := by
  cases l with
  | nil => cases hsg
  | cons x xs =>
    simp only [List.head?_cons, Option.some.injEq] at hsg
    subst hsg
    exact h

theorem lastTok_getLastQ : ∀ (l : List OCRMatch), lastTok l →
    ∀ sg, l.getLast? = some sg → sg.confidence.isSome = true := by
  intro l
  induction l with
  | nil => intro _ sg hsg; cases hsg
  | cons x xs ih =>
    intro h sg hsg
    cases xs with
    | nil =>
      simp only [List.getLast?_singleton, Option.some.injEq] at hsg
      subst hsg
      exact h
    | cons y ys =>
      rw [List.getLast?_cons_cons] at hsg
      exact ih h sg hsg

/-- C3: on a constructed matcher with nonempty groups and token texts,
the segment list never starts or ends with a glue segment, and every glue
segment `b` sitting between neighbours `a` and `c` carries exactly the
region `from_points(a.right, a.top, c.left, a.bottom)` — horizontally
from the right edge of the immediately preceding segment to the left edge
of the next token, vertically the preceding segment's top and bottom.  In
particular `b.width = c.left - a.right` verbatim, which is negative
whenever the next token starts left of the preceding segment's right edge
(no clamping). -/
theorem ofInput_glue_regions (lb pb : List Char) (pars : List (List (List Row)))
    (hwf : WFInput pars) :
    (∀ sg, (OCRMatcher.ofInput lb pb pars).ocr_segments.head? = some sg →
      sg.confidence ≠ none) ∧
    (∀ sg, (OCRMatcher.ofInput lb pb pars).ocr_segments.getLast? = some sg →
      sg.confidence ≠ none) ∧
    (∀ (pre : List OCRMatch) (a b c : OCRMatch) (post : List OCRMatch),
      (OCRMatcher.ofInput lb pb pars).ocr_segments = pre ++ a :: b :: c :: post →
      b.confidence = none →
      b.region = Region.from_coordinates a.region.right a.region.top
          c.region.left a.region.bottom ∧
        b.region.width = c.region.left - a.region.right ∧
        b.region.y = a.region.top ∧
        b.region.height = a.region.bottom - a.region.top) := by
  obtain ⟨hWF, hhead, hlast, _⟩ := GlueInv_processFile lb pb pars hwf
  refine ⟨?_, ?_, ?_⟩
  · intro sg hsg
    rw [show (OCRMatcher.ofInput lb pb pars).ocr_segments =
        (processFile lb pb pars).revSegs.reverse from rfl,
      List.head?_reverse] at hsg
    have := lastTok_getLastQ _ hlast sg hsg
    simp only [Option.isSome_iff_exists] at this
    obtain ⟨c0, hc0⟩ := this
    rw [hc0]
    simp
  · intro sg hsg
    rw [show (OCRMatcher.ofInput lb pb pars).ocr_segments =
        (processFile lb pb pars).revSegs.reverse from rfl,
      List.getLast?_reverse] at hsg
    have := headTok_headQ _ hhead sg hsg
    simp only [Option.isSome_iff_exists] at this
    obtain ⟨c0, hc0⟩ := this
    rw [hc0]
    simp
  · intro pre a b c post heq hglue
    have heq2 : (processFile lb pb pars).revSegs =
        post.reverse ++ c :: b :: a :: pre.reverse := by
      have h3 : (processFile lb pb pars).revSegs.reverse =
          pre ++ a :: b :: c :: post := heq
      have h4 := congrArg List.reverse h3
      simpa [List.reverse_append] using h4
    have hreg := revGlueWF_split _ hWF post.reverse c b a pre.reverse heq2 hglue
    refine ⟨hreg, ?_, ?_, ?_⟩
    · rw [hreg]; rfl
    · rw [hreg]; rfl
    · rw [hreg]; rfl

/-- Witness for `ofInput_glue_regions`: in the two-paragraph sample
matcher the line-break glue segment (5, 6) bridges the token "is"
(right edge 330) to the token "ok" (left edge 27), giving the
negative-width region (330, 29, -303, 32) verbatim. -/
theorem ofInput_glue_regions_witness :
    (⟨5, 6, ⟨330, 29, -303, 32⟩, none⟩ : OCRMatch).region =
      Region.from_coordinates
        (⟨3, 5, ⟨135, 29, 195, 32⟩, some 19⟩ : OCRMatch).region.right
        (⟨3, 5, ⟨135, 29, 195, 32⟩, some 19⟩ : OCRMatch).region.top
        (⟨6, 8, ⟨27, 84, 36, 12⟩, some 97⟩ : OCRMatch).region.left
        (⟨3, 5, ⟨135, 29, 195, 32⟩, some 19⟩ : OCRMatch).region.bottom ∧
    (⟨5, 6, ⟨330, 29, -303, 32⟩, none⟩ : OCRMatch).region.width =
      (⟨6, 8, ⟨27, 84, 36, 12⟩, some 97⟩ : OCRMatch).region.left -
        (⟨3, 5, ⟨135, 29, 195, 32⟩, some 19⟩ : OCRMatch).region.right ∧
    (⟨5, 6, ⟨330, 29, -303, 32⟩, none⟩ : OCRMatch).region.y =
      (⟨3, 5, ⟨135, 29, 195, 32⟩, some 19⟩ : OCRMatch).region.top ∧
    (⟨5, 6, ⟨330, 29, -303, 32⟩, none⟩ : OCRMatch).region.height =
      (⟨3, 5, ⟨135, 29, 195, 32⟩, some 19⟩ : OCRMatch).region.bottom -
        (⟨3, 5, ⟨135, 29, 195, 32⟩, some 19⟩ : OCRMatch).region.top :=
  (ofInput_glue_regions ['\n'] ['\n', '\n'] [[[rowPy, rowIs], [rowOk]], [[rowZz]]]
      (by decide)).2.2
    [⟨0, 2, ⟨26, 29, 98, 32⟩, some 24⟩, ⟨2, 3, ⟨124, 29, 11, 32⟩, none⟩]
    ⟨3, 5, ⟨135, 29, 195, 32⟩, some 19⟩
    ⟨5, 6, ⟨330, 29, -303, 32⟩, none⟩
    ⟨6, 8, ⟨27, 84, 36, 12⟩, some 97⟩
    [⟨8, 10, ⟨63, 84, -13, 12⟩, none⟩, ⟨10, 12, ⟨50, 106, 79, 12⟩, some 93⟩]
    (by rfl) (by rfl)

end Bree
